import Mathlib

/-!
Verification of the query-resolution core of NutriBot-AI (src/diet_app.py).

The resolver `parse_diet_query` (diet_app.py lines 165-174) is embedded
shallowly: Python strings become `List Char`, the optional argument becomes
`Option`, and the module-level catalog `RECIPES` becomes an explicit
parameter (the code only ever reads the `"title"` field of each record).
Python's `difflib.get_close_matches` / `SequenceMatcher` (CPython's pure
Python implementation) is embedded as well; similarity ratios are modelled
as exact rationals `2*M/T` represented by the pair `(M, T)` and compared by
cross multiplication, where CPython compares the IEEE doubles `2.0*M/T`
(for the small integers that occur here the two orders agree except for
astronomically close distinct ratios).  Character-level operations
(`lower`, `strip`, `split`, `title`) are modelled with their ASCII
semantics.
-/

/-- A Python string, modelled as its list of characters. -/
abbrev Str := List Char

/-- A catalog entry.  In the source a recipe is a JSON object with fields
`title`, `description`, `ingredients`, `steps`, `diet`, `tags`, `image`;
`parse_diet_query` reads only `r["title"]`, so only that field is
embedded. -/
structure Recipe where
  title : Str
deriving DecidableEq, Repr

/-- The module constant `STOPWORDS` of diet_app.py (line 28). -/
def STOPWORDS : List Str :=
  ["what".data, "i".data, "want".data, "to".data, "eat".data, "give".data,
   "me".data, "please".data, "can".data, "have".data, "some".data,
   "the".data, "a".data, "an".data, "for".data, "need".data, "show".data]

/-- Python `str.lower()` (ASCII semantics). -/
def lowerS (s : Str) : Str := s.map Char.toLower

/-- Python `str.strip()` with no argument: remove leading and trailing
whitespace. -/
def stripWs (s : Str) : Str :=
  ((s.dropWhile Char.isWhitespace).reverse.dropWhile Char.isWhitespace).reverse

/-- Helper for `splitWs`: `acc` is the current in-progress token,
reversed. -/
def splitWsAux (acc : Str) : Str → List Str
  | [] => if acc = [] then [] else [acc.reverse]
  | c :: cs =>
    if c.isWhitespace then
      if acc = [] then splitWsAux [] cs else acc.reverse :: splitWsAux [] cs
    else splitWsAux (c :: acc) cs

/-- Python `str.split()` with no argument: split on whitespace runs,
producing no empty tokens. -/
def splitWs (s : Str) : List Str := splitWsAux [] s

/-- Python substring membership `needle in hay` restricted to prefixes:
`needle` is a prefix of `hay`. -/
def isPre : Str → Str → Bool
  | [], _ => true
  | _ :: _, [] => false
  | a :: as, b :: bs => a = b && isPre as bs

/-- Python substring membership `needle in hay`: `needle` occurs as a
contiguous substring of `hay`. -/
def isSub (needle : Str) : Str → Bool
  | [] => needle = []
  | c :: cs => isPre needle (c :: cs) || isSub needle cs

/-- Python `str.title()` (ASCII semantics): a letter following a
non-letter is uppercased, any other letter is lowercased.  `prevCased`
records whether the previous character was a letter. -/
def titleCaseAux (prevCased : Bool) : Str → Str
  | [] => []
  | c :: cs =>
    (if prevCased then c.toLower else c.toUpper) :: titleCaseAux c.isAlpha cs

/-- Python `str.title()`. -/
def titleCase (s : Str) : Str := titleCaseAux false s

/-- Python strict lexicographic comparison of strings (by code point). -/
def lexLt : Str → Str → Bool
  | _, [] => false
  | [], _ :: _ => true
  | a :: as, b :: bs => a < b || (a = b && lexLt as bs)

/-- `dict.fromkeys` on a list of keys keeps the first occurrence of every
key, in order; `seen` accumulates the keys already emitted. -/
def dedupFirstGo {α} [DecidableEq α] (seen : List α) : List α → List α
  | [] => []
  | x :: xs =>
    if x ∈ seen then dedupFirstGo seen xs
    else x :: dedupFirstGo (x :: seen) xs

/-- `list(dict.fromkeys(l))`: deduplicate preserving first-occurrence
order. -/
def dedupFirst {α} [DecidableEq α] (l : List α) : List α := dedupFirstGo [] l

/-! ### The difflib model

`parse_diet_query` calls
`difflib.get_close_matches(text, titles, n=6, cutoff=0.5)`.
CPython's `get_close_matches` builds a `SequenceMatcher` with
`isjunk=None` (so the junk set is empty) and `autojunk=True`, keeps every
possibility whose `real_quick_ratio`, `quick_ratio` and `ratio` are all
`>= cutoff`, and returns the `n` best `(ratio, possibility)` pairs via
`heapq.nlargest`, which is a stable descending sort on the pairs followed
by truncation.  In every comparison the first sequence `a` is the
possibility (a lowercased catalog title) and the second sequence `b` is
the query text. -/

/-- The autojunk "popular" test computed by `SequenceMatcher.set_seq2`:
when `b` has at least 200 elements, an element occurring more than
`len(b) // 100 + 1` times is dropped from `b2j` (and hence invisible to
the inner matching loop). -/
def popularB (b : Str) : Char → Bool :=
  if 200 ≤ b.length then fun c => b.length / 100 + 1 < b.count c
  else fun _ => false

/-- Length of the maximal common run of `xs` and `ys` starting at their
heads, restricted to positions whose `ys`-character is not junk
(`pop`). -/
def runLenL (pop : Char → Bool) : Str → Str → Nat
  | x :: xs, y :: ys =>
    if x = y ∧ pop y = false then runLenL pop xs ys + 1 else 0
  | _, _ => 0

/-- The slice `s[lo:hi]` of a Python sequence. -/
def seg (s : Str) (lo hi : Nat) : Str := (s.take hi).drop lo

/-- The inner dynamic program of `SequenceMatcher.find_longest_match` on
`a[alo:ahi]` and `b[blo:bhi]`: the longest run of equal characters whose
`b`-side avoids popular characters, returned as `(i, j, size)`.  The DP
records the run's endpoint the first time the maximal size is reached
while scanning `i` then `j` in increasing order; equivalently (as
computed here) the start `(i, j)` of a maximal-size run is chosen
lexicographically smallest. -/
def bestBlock (a b : Str) (pop : Char → Bool) (alo ahi blo bhi : Nat) :
    Nat × Nat × Nat :=
  (List.range' alo (ahi - alo)).foldl
    (fun best i =>
      (List.range' blo (bhi - blo)).foldl
        (fun best j =>
          let k := runLenL pop (seg a i ahi) (seg b j bhi)
          if best.2.2 < k then (i, j, k) else best)
        best)
    (alo, blo, 0)

/-- `SequenceMatcher.find_longest_match` on `a[alo:ahi]`, `b[blo:bhi]`:
the DP result extended left and then right over equal characters.  The
junk set `bjunk` is empty here (the matcher is built with `isjunk=None`),
so the `not isbjunk(...)` guards of the two extension loops are vacuous
and the final junk-extension loops do nothing. -/
def flm (a b : Str) (pop : Char → Bool) (alo ahi blo bhi : Nat) :
    Nat × Nat × Nat :=
  let best := bestBlock a b pop alo ahi blo bhi
  let i := best.1
  let j := best.2.1
  let k := best.2.2
  let l := runLenL (fun _ => false) (seg a alo i).reverse (seg b blo j).reverse
  let i := i - l
  let j := j - l
  let k := k + l
  let r := runLenL (fun _ => false) (seg a (i + k) ahi) (seg b (j + k) bhi)
  (i, j, k + r)

/-- Total size of the matching blocks of `get_matching_blocks` on the
given ranges: recursively take the longest match and recurse on both
sides.  `fuel` bounds the recursion depth; each recursive call strictly
decreases `(ahi - alo) + (bhi - blo)`, so the initial fuel chosen in
`matchTotal` is never exhausted. -/
def matchTotalGo (a b : Str) (pop : Char → Bool) :
    Nat → Nat → Nat → Nat → Nat → Nat
  | 0, _, _, _, _ => 0
  | fuel + 1, alo, ahi, blo, bhi =>
    let m := flm a b pop alo ahi blo bhi
    let i := m.1
    let j := m.2.1
    let k := m.2.2
    if k = 0 then 0
    else
      matchTotalGo a b pop fuel alo i blo j + k +
        matchTotalGo a b pop fuel (i + k) ahi (j + k) bhi

/-- `M`, the total number of matched characters underlying
`SequenceMatcher(None, a, b).ratio()`. -/
def matchTotal (a b : Str) : Nat :=
  matchTotalGo a b (popularB b) (a.length + b.length + 1) 0 a.length 0 b.length

/-- The match count of `SequenceMatcher.quick_ratio`: each character of
`a` that is still available in `b` consumes one occurrence; the result is
the size of the multiset intersection. -/
def quickMatches : Str → Str → Nat
  | [], _ => 0
  | x :: xs, b =>
    if x ∈ b then quickMatches xs (b.erase x) + 1 else quickMatches xs b

/-- Numerator of the exact value of `_calculate_ratio(m, t)`
(`2*m/t`, and `1.0` when `t = 0`). -/
def rnum (s : Nat × Nat) : Nat := if s.2 = 0 then 1 else 2 * s.1

/-- Denominator of the exact value of `_calculate_ratio(m, t)`; always
positive. -/
def rden (s : Nat × Nat) : Nat := if s.2 = 0 then 1 else s.2

/-- `cn/cd <= _calculate_ratio(m, t)`, by cross multiplication. -/
def ratioGeB (s : Nat × Nat) (cn cd : Nat) : Bool :=
  decide (cn * rden s ≤ rnum s * cd)

/-- Strict comparison of two ratios. -/
def ratLt (s t : Nat × Nat) : Bool :=
  decide (rnum s * rden t < rnum t * rden s)

/-- Equality of two ratios. -/
def ratEq (s t : Nat × Nat) : Bool :=
  decide (rnum s * rden t = rnum t * rden s)

/-- The `(m, t)` pair whose `_calculate_ratio` is
`SequenceMatcher(None, x, word).ratio()`. -/
def scoreOf (word x : Str) : Nat × Nat :=
  (matchTotal x word, x.length + word.length)

/-- The three cutoff checks of `get_close_matches` for possibility `x`
against `word`: `real_quick_ratio() >= cutoff and quick_ratio() >= cutoff
and ratio() >= cutoff`, with cutoff `cn/cd`. -/
def closeEnough (word x : Str) (cn cd : Nat) : Bool :=
  let t := x.length + word.length
  ratioGeB (min x.length word.length, t) cn cd &&
  ratioGeB (quickMatches x word, t) cn cd &&
  ratioGeB (scoreOf word x) cn cd

/-- The key on which `heapq.nlargest` compares two retained candidates:
the pair `(ratio, possibility)` ordered lexicographically, the string by
code points.  `keyLt p q` states that `p` scores strictly below `q`. -/
def keyLt (p q : (Nat × Nat) × Str) : Bool :=
  ratLt p.1 q.1 || (ratEq p.1 q.1 && lexLt p.2 q.2)

/-- `keyGe p q`: `p` does not score strictly below `q`. -/
def keyGe (p q : (Nat × Nat) × Str) : Bool := !keyLt p q

/-- Insert `x` into a descending-sorted list, after every element it does
not strictly exceed: this realises a stable descending sort. -/
def insertDesc {α} (ge : α → α → Bool) (x : α) : List α → List α
  | [] => [x]
  | y :: ys => if ge x y then x :: y :: ys else y :: insertDesc ge x ys

/-- Stable descending insertion sort, the order produced by
`sorted(l, reverse=True)` (and hence by `heapq.nlargest` before
truncation). -/
def sortDesc {α} (ge : α → α → Bool) : List α → List α
  | [] => []
  | x :: xs => insertDesc ge x (sortDesc ge xs)

/-- The scored candidate list built by `get_close_matches`: every
possibility passing the three cutoff checks, paired with its ratio, in
input order. -/
def closeScored (word : Str) (possibilities : List Str) (cn cd : Nat) :
    List ((Nat × Nat) × Str) :=
  (possibilities.filter (fun x => closeEnough word x cn cd)).map
    (fun x => (scoreOf word x, x))

/-- `difflib.get_close_matches(word, possibilities, n, cn/cd)`. -/
def get_close_matches (word : Str) (possibilities : List Str)
    (n cn cd : Nat) : List Str :=
  ((sortDesc keyGe (closeScored word possibilities cn cd)).take n).map
    (fun p => p.2)

/-! ### The resolver `parse_diet_query` (diet_app.py lines 165-174) -/

/-- Line 166: `text = (text or "").lower().strip()`.  A `None` argument
is coerced to the empty string. -/
def normQuery (text? : Option Str) : Str := stripWs (lowerS (text?.getD []))

/-- Line 168:
`words = [w for w in text.split() if w not in STOPWORDS and len(w)>1]`. -/
def queryWords (text : Str) : List Str :=
  (splitWs text).filter (fun w => decide (w ∉ STOPWORDS ∧ 1 < w.length))

/-- Line 169: `matches = [r["title"] for r in RECIPES if
any(w in r["title"].lower() for w in words)]`. -/
def substringMatches (words : List Str) (recipes : List Recipe) :
    List Str :=
  (recipes.filter (fun r => words.any (fun w => isSub w (lowerS r.title)))).map
    Recipe.title

/-- Lines 171-173: the fuzzy fallback,
`[f.title() for f in difflib.get_close_matches(text,
[r["title"].lower() for r in RECIPES], n=6, cutoff=0.5)]`. -/
def fuzzyMatches (text : Str) (recipes : List Recipe) : List Str :=
  (get_close_matches text (recipes.map (fun r => lowerS r.title)) 6 1 2).map
    titleCase

/-- Lines 165-174: `parse_diet_query`. -/
def parse_diet_query (recipes : List Recipe) (text? : Option Str) :
    List Str :=
  let text := normQuery text?
  if text = [] then []
  else
    let ms := substringMatches (queryWords text) recipes
    let ms := if ms = [] then fuzzyMatches text recipes else ms
    (dedupFirst ms).take 6

/-! ### Definitions taken from the specification text, for refinement
claims.  These follow the spec's words and are compared against the
definitions above, which follow the source. -/

/-- The Query Normalizer as the spec describes it (spec section 4.1):
lowercase, strip; if the result is empty produce an empty token sequence;
otherwise split on whitespace, discard tokens in the Stopword Set and
tokens of length at most 1, keeping the order of appearance. -/
def normalize_spec (raw : Str) : List Str :=
  let t := stripWs (lowerS raw)
  if t = [] then []
  else (splitWs t).filter (fun w => decide (w ∉ STOPWORDS ∧ ¬w.length ≤ 1))

/-- `keyGe` restricted to the similarity alone, ignoring the title: with
a stable sort this realises the tie policy claimed by the spec ("ties
broken by catalog order"). -/
def keyGeRatio (p q : (Nat × Nat) × Str) : Bool := !ratLt p.1 q.1

/-- The fuzzy selection as claim C5 describes it: up to `n` titles with
ratio at least the cutoff, by descending similarity with ties broken by
catalog order (a stable descending sort on similarity alone). -/
def get_close_matches_specOrder (word : Str) (possibilities : List Str)
    (n cn cd : Nat) : List Str :=
  ((sortDesc keyGeRatio (closeScored word possibilities cn cd)).take n).map
    (fun p => p.2)

/-! ### Helper lemmas: deduplication -/

theorem mem_dedupFirstGo {α} [DecidableEq α] (l : List α) :
    ∀ (seen : List α) (a : α),
      a ∈ dedupFirstGo seen l ↔ a ∈ l ∧ a ∉ seen := by
  induction l with
  | nil => intro seen a; simp [dedupFirstGo]
  | cons x xs ih =>
    intro seen a
    by_cases hx : x ∈ seen
    · simp only [dedupFirstGo, if_pos hx, ih, List.mem_cons]
      constructor
      · rintro ⟨h1, h2⟩; exact ⟨Or.inr h1, h2⟩
      · rintro ⟨h1 | h1, h2⟩
        · exact absurd (h1 ▸ hx) h2
        · exact ⟨h1, h2⟩
    · simp only [dedupFirstGo, if_neg hx, List.mem_cons, ih]
      constructor
      · rintro (rfl | ⟨h1, h2⟩)
        · exact ⟨Or.inl rfl, hx⟩
        · exact ⟨Or.inr h1, fun hs => h2 (Or.inr hs)⟩
      · rintro ⟨rfl | h1, h2⟩
        · exact Or.inl rfl
        · by_cases hax : a = x
          · exact Or.inl hax
          · exact Or.inr ⟨h1, by simp [hax, h2]⟩

theorem nodup_dedupFirstGo {α} [DecidableEq α] (l : List α) :
    ∀ seen : List α, (dedupFirstGo seen l).Nodup := by
  induction l with
  | nil => intro seen; simp [dedupFirstGo]
  | cons x xs ih =>
    intro seen
    by_cases hx : x ∈ seen
    · simpa [dedupFirstGo, if_pos hx] using ih seen
    · rw [dedupFirstGo, if_neg hx]
      refine List.nodup_cons.2 ⟨fun ha => ?_, ih (x :: seen)⟩
      exact ((mem_dedupFirstGo xs (x :: seen) x).1 ha).2 (by simp)

theorem mem_dedupFirst {α} [DecidableEq α] {l : List α} {a : α} :
    a ∈ dedupFirst l ↔ a ∈ l := by
  simp [dedupFirst, mem_dedupFirstGo]

theorem nodup_dedupFirst {α} [DecidableEq α] (l : List α) :
    (dedupFirst l).Nodup := nodup_dedupFirstGo l []

/-! ### Helper lemmas: substring membership -/

theorem isPre_iff {n h : Str} : isPre n h = true ↔ n <+: h := by
  induction n generalizing h with
  | nil => simp [isPre]
  | cons a as ih =>
    cases h with
    | nil => simp [isPre]
    | cons b bs =>
      simp only [isPre, Bool.and_eq_true, decide_eq_true_iff, ih,
        List.cons_prefix_cons]

theorem isSub_iff {n h : Str} : isSub n h = true ↔ n <:+: h := by
  induction h with
  | nil =>
    simp only [isSub, decide_eq_true_iff, List.infix_nil]
  | cons c cs ih =>
    simp only [isSub, Bool.or_eq_true, isPre_iff, ih]
    constructor
    · rintro (hp | hi)
      · exact hp.isInfix
      · exact hi.trans (List.infix_cons (List.infix_refl cs))
    · rintro ⟨s, t, hst⟩
      cases s with
      | nil => exact Or.inl ⟨t, by simpa using hst⟩
      | cons d ds =>
        refine Or.inr ⟨ds, t, ?_⟩
        simpa using congrArg List.tail hst

/-! ### Helper lemmas: whitespace-only queries -/

theorem toLower_of_isWhitespace {c : Char} (h : c.isWhitespace = true) :
    c.toLower = c := by
  simp only [Char.isWhitespace, Bool.or_eq_true, decide_eq_true_iff] at h
  rcases h with ((rfl | rfl) | rfl) | rfl <;> decide

theorem stripWs_eq_nil {s : Str} (h : ∀ c ∈ s, c.isWhitespace = true) :
    stripWs s = [] := by
  unfold stripWs
  rw [List.dropWhile_eq_nil_iff.2 h]
  simp

theorem normQuery_eq_nil_of_ws {t : Str}
    (h : ∀ c ∈ t, c.isWhitespace = true) : normQuery (some t) = [] := by
  unfold normQuery
  refine stripWs_eq_nil fun c hc => ?_
  simp only [Option.getD_some, lowerS, List.mem_map] at hc
  obtain ⟨d, hd, rfl⟩ := hc
  rw [toLower_of_isWhitespace (h d hd)]
  exact h d hd

/-! ### Helper lemmas: the candidate order used by heapq.nlargest -/

theorem lexLt_asymm : ∀ {x y : Str}, lexLt x y = true → lexLt y x = false := by
  intro x y
  induction x generalizing y with
  | nil => cases y <;> simp [lexLt]
  | cons a as ih =>
    cases y with
    | nil => simp [lexLt]
    | cons b bs =>
      simp only [lexLt, Bool.or_eq_true, Bool.and_eq_true, decide_eq_true_iff,
        Bool.or_eq_false_iff, Bool.and_eq_false_iff, decide_eq_false_iff_not]
      rintro (hab | ⟨rfl, h⟩)
      · exact ⟨lt_asymm hab, Or.inl (ne_of_lt hab).symm⟩
      · exact ⟨lt_irrefl _, Or.inr (ih h)⟩

theorem lexLt_trans :
    ∀ {x y z : Str}, lexLt x y = true → lexLt y z = true → lexLt x z = true := by
  intro x y z
  induction x generalizing y z with
  | nil =>
    cases z with
    | nil => intro _ h2; cases y <;> simp [lexLt] at h2
    | cons c cs => intro _ _; simp [lexLt]
  | cons a as ih =>
    cases y with
    | nil => intro h1; simp [lexLt] at h1
    | cons b bs =>
      cases z with
      | nil => intro _ h2; simp [lexLt] at h2
      | cons c cs =>
        simp only [lexLt, Bool.or_eq_true, Bool.and_eq_true, decide_eq_true_iff]
        rintro (hab | ⟨rfl, hrec⟩) (hbc | ⟨rfl, hrec2⟩)
        · exact Or.inl (lt_trans hab hbc)
        · exact Or.inl hab
        · exact Or.inl hbc
        · exact Or.inr ⟨rfl, ih hrec hrec2⟩

theorem lexLt_connex :
    ∀ {x y : Str}, lexLt x y = false → lexLt y x = false → x = y := by
  intro x y
  induction x generalizing y with
  | nil =>
    cases y with
    | nil => intro _ _; rfl
    | cons b bs => intro h1 _; simp [lexLt] at h1
  | cons a as ih =>
    cases y with
    | nil => intro _ h2; simp [lexLt] at h2
    | cons b bs =>
      simp only [lexLt, Bool.or_eq_false_iff, Bool.and_eq_false_iff,
        decide_eq_false_iff_not]
      rintro ⟨h1, h2⟩ ⟨h3, h4⟩
      have hab : a = b := by
        rcases lt_trichotomy a b with h | h | h
        · exact absurd h h1
        · exact h
        · exact absurd h h3
      subst hab
      rcases h2 with h2 | h2
      · exact absurd rfl h2
      · rcases h4 with h4 | h4
        · exact absurd rfl h4
        · rw [ih h2 h4]

theorem rden_pos (s : Nat × Nat) : 0 < rden s := by
  unfold rden; split <;> omega

theorem frac_le_trans {a x b y c z : Nat} (hy : 0 < y)
    (h1 : a * y ≤ b * x) (h2 : b * z ≤ c * y) : a * z ≤ c * x := by
  have h5 : a * z * y ≤ c * x * y := by
    calc a * z * y = a * y * z := by ring
      _ ≤ b * x * z := Nat.mul_le_mul_right z h1
      _ = b * z * x := by ring
      _ ≤ c * y * x := Nat.mul_le_mul_right x h2
      _ = c * x * y := by ring
  exact Nat.le_of_mul_le_mul_right h5 hy

theorem frac_le_lt {a x b y c z : Nat} (hx : 0 < x) (hy : 0 < y)
    (h1 : a * y ≤ b * x) (h2 : b * z < c * y) : a * z < c * x := by
  have h5 : a * z * y < c * x * y := by
    calc a * z * y = a * y * z := by ring
      _ ≤ b * x * z := Nat.mul_le_mul_right z h1
      _ = b * z * x := by ring
      _ < c * y * x := mul_lt_mul_of_pos_right h2 hx
      _ = c * x * y := by ring
  exact lt_of_mul_lt_mul_right h5 (Nat.zero_le y)

theorem frac_lt_le {a x b y c z : Nat} (hy : 0 < y) (hz : 0 < z)
    (h1 : a * y < b * x) (h2 : b * z ≤ c * y) : a * z < c * x := by
  have h5 : a * z * y < c * x * y := by
    calc a * z * y = a * y * z := by ring
      _ < b * x * z := mul_lt_mul_of_pos_right h1 hz
      _ = b * z * x := by ring
      _ ≤ c * y * x := Nat.mul_le_mul_right x h2
      _ = c * x * y := by ring
  exact lt_of_mul_lt_mul_right h5 (Nat.zero_le y)

theorem keyLt_eq_false_iff {p q : (Nat × Nat) × Str} :
    keyLt p q = false ↔
      rnum q.1 * rden p.1 ≤ rnum p.1 * rden q.1 ∧
        (rnum p.1 * rden q.1 = rnum q.1 * rden p.1 → lexLt p.2 q.2 = false) := by
  simp only [keyLt, Bool.or_eq_false_iff, Bool.and_eq_false_iff, ratLt, ratEq,
    decide_eq_false_iff_not, Nat.not_lt]
  constructor
  · rintro ⟨h1, h2 | h2⟩
    · exact ⟨h1, fun he => absurd he h2⟩
    · exact ⟨h1, fun _ => h2⟩
  · rintro ⟨h1, h2⟩
    by_cases he : rnum p.1 * rden q.1 = rnum q.1 * rden p.1
    · exact ⟨h1, Or.inr (h2 he)⟩
    · exact ⟨h1, Or.inl he⟩

theorem keyLt_false_total (p q : (Nat × Nat) × Str) :
    keyLt p q = false ∨ keyLt q p = false := by
  rcases Nat.lt_trichotomy (rnum p.1 * rden q.1) (rnum q.1 * rden p.1)
    with h | h | h
  · right
    exact keyLt_eq_false_iff.2
      ⟨le_of_lt h, fun he => absurd he.symm (ne_of_lt h)⟩
  · by_cases hl : lexLt p.2 q.2 = true
    · right
      exact keyLt_eq_false_iff.2 ⟨le_of_eq h, fun _ => lexLt_asymm hl⟩
    · left
      exact keyLt_eq_false_iff.2
        ⟨le_of_eq h.symm, fun _ => Bool.eq_false_iff.2 hl⟩
  · left
    exact keyLt_eq_false_iff.2
      ⟨le_of_lt h, fun he => absurd he.symm (ne_of_lt h)⟩

theorem keyLt_false_trans {p q r : (Nat × Nat) × Str}
    (h1 : keyLt p q = false) (h2 : keyLt q r = false) : keyLt p r = false := by
  rw [keyLt_eq_false_iff] at h1 h2 ⊢
  obtain ⟨hle1, him1⟩ := h1
  obtain ⟨hle2, him2⟩ := h2
  refine ⟨frac_le_trans (rden_pos q.1) hle2 hle1, fun heq => ?_⟩
  have e1 : rnum p.1 * rden q.1 = rnum q.1 * rden p.1 := by
    by_contra hne
    have hlt : rnum q.1 * rden p.1 < rnum p.1 * rden q.1 :=
      lt_of_le_of_ne hle1 fun h => hne h.symm
    have hc : rnum r.1 * rden p.1 < rnum p.1 * rden r.1 :=
      frac_le_lt (rden_pos r.1) (rden_pos q.1) hle2 hlt
    exact (ne_of_gt hc) heq
  have e2 : rnum q.1 * rden r.1 = rnum r.1 * rden q.1 := by
    by_contra hne
    have hlt : rnum r.1 * rden q.1 < rnum q.1 * rden r.1 :=
      lt_of_le_of_ne hle2 fun h => hne h.symm
    have hc : rnum r.1 * rden p.1 < rnum p.1 * rden r.1 :=
      frac_lt_le (rden_pos q.1) (rden_pos p.1) hlt hle1
    exact (ne_of_gt hc) heq
  have l1 : lexLt p.2 q.2 = false := him1 e1
  have l2 : lexLt q.2 r.2 = false := him2 e2
  cases hb : lexLt p.2 r.2 with
  | false => rfl
  | true =>
    cases hqp : lexLt q.2 p.2 with
    | true =>
      have := lexLt_trans hqp hb
      rw [this] at l2
      cases l2
    | false =>
      have hpq := lexLt_connex l1 hqp
      rw [hpq] at hb
      rw [hb] at l2
      cases l2

theorem keyGe_eq_true_iff {p q : (Nat × Nat) × Str} :
    keyGe p q = true ↔ keyLt p q = false := by
  simp [keyGe]

/-! ### Helper lemmas: stable descending insertion sort -/

theorem mem_insertDesc {α} {ge : α → α → Bool} {x a : α} :
    ∀ {l : List α}, a ∈ insertDesc ge x l ↔ a = x ∨ a ∈ l := by
  intro l
  induction l with
  | nil => simp [insertDesc]
  | cons y ys ih =>
    by_cases h : ge x y = true
    · simp only [insertDesc, if_pos h, List.mem_cons]
    · simp only [insertDesc, if_neg h, List.mem_cons, ih]
      tauto

theorem mem_sortDesc {α} {ge : α → α → Bool} {a : α} :
    ∀ {l : List α}, a ∈ sortDesc ge l ↔ a ∈ l := by
  intro l
  induction l with
  | nil => simp [sortDesc]
  | cons x xs ih => simp [sortDesc, mem_insertDesc, ih]

theorem pairwise_insertDesc {α} {ge : α → α → Bool}
    (htot : ∀ a b, ge a b = true ∨ ge b a = true)
    (htr : ∀ a b c, ge a b = true → ge b c = true → ge a c = true)
    (x : α) :
    ∀ {l : List α}, l.Pairwise (fun a b => ge a b = true) →
      (insertDesc ge x l).Pairwise (fun a b => ge a b = true) := by
  intro l
  induction l with
  | nil => intro _; simp [insertDesc]
  | cons y ys ih =>
    intro hp
    rw [List.pairwise_cons] at hp
    obtain ⟨hy, hys⟩ := hp
    by_cases h : ge x y = true
    · rw [insertDesc, if_pos h]
      refine List.pairwise_cons.2 ⟨?_, List.pairwise_cons.2 ⟨hy, hys⟩⟩
      intro z hz
      rcases List.mem_cons.1 hz with rfl | hz
      · exact h
      · exact htr x y z h (hy z hz)
    · rw [insertDesc, if_neg h]
      refine List.pairwise_cons.2 ⟨?_, ih hys⟩
      intro z hz
      rcases mem_insertDesc.1 hz with heq | hz
      · rw [heq]
        rcases htot x y with hxy | hyx
        · exact absurd hxy h
        · exact hyx
      · exact hy z hz

theorem pairwise_sortDesc {α} {ge : α → α → Bool}
    (htot : ∀ a b, ge a b = true ∨ ge b a = true)
    (htr : ∀ a b c, ge a b = true → ge b c = true → ge a c = true) :
    ∀ l : List α, (sortDesc ge l).Pairwise (fun a b => ge a b = true) := by
  intro l
  induction l with
  | nil => simp [sortDesc]
  | cons x xs ih =>
    rw [sortDesc]
    exact pairwise_insertDesc htot htr x ih

/-! ### Helper lemmas: the shape of parse_diet_query -/

theorem substringMatches_nil_words (recipes : List Recipe) :
    substringMatches [] recipes = [] := by
  simp [substringMatches]

theorem parse_diet_query_eq_nil {recipes : List Recipe} {q : Option Str}
    (h : normQuery q = []) : parse_diet_query recipes q = [] := by
  simp only [parse_diet_query]
  rw [if_pos h]

theorem parse_diet_query_eq_substr {recipes : List Recipe} {q : Option Str}
    (h1 : normQuery q ≠ [])
    (h2 : substringMatches (queryWords (normQuery q)) recipes ≠ []) :
    parse_diet_query recipes q =
      (dedupFirst
        (substringMatches (queryWords (normQuery q)) recipes)).take 6 := by
  simp only [parse_diet_query]
  rw [if_neg h1, if_neg h2]

theorem parse_diet_query_eq_fuzzy {recipes : List Recipe} {q : Option Str}
    (h1 : normQuery q ≠ [])
    (h2 : substringMatches (queryWords (normQuery q)) recipes = []) :
    parse_diet_query recipes q =
      (dedupFirst (fuzzyMatches (normQuery q) recipes)).take 6 := by
  simp only [parse_diet_query]
  rw [if_neg h1, if_pos h2]

/-! ### The claims -/

/-- C1: for every query string and every catalog, the list returned by
`parse_diet_query` has at most 6 entries and contains no duplicate
titles, judged by exact string equality — the final step is
`list(dict.fromkeys(matches))[:6]`. -/
theorem c1_result_le_six_and_nodup (recipes : List Recipe) (q : Option Str) :
    (parse_diet_query recipes q).length ≤ 6 ∧
      (parse_diet_query recipes q).Nodup := by
  by_cases h : normQuery q = []
  · rw [parse_diet_query_eq_nil h]
    exact ⟨by simp, List.nodup_nil⟩
  · by_cases h2 : substringMatches (queryWords (normQuery q)) recipes = []
    · rw [parse_diet_query_eq_fuzzy h h2]
      exact ⟨List.length_take_le 6 _,
        (nodup_dedupFirst _).sublist (List.take_sublist 6 _)⟩
    · rw [parse_diet_query_eq_substr h h2]
      exact ⟨List.length_take_le 6 _,
        (nodup_dedupFirst _).sublist (List.take_sublist 6 _)⟩

/-- C2: an input that is empty or consists only of whitespace normalizes
to the empty string, and `parse_diet_query` returns `[]` from the early
`if not text: return []` — no error is raised (the model is a total
function). -/
theorem c2_ws_query_empty_result (recipes : List Recipe) (t : Str)
    (h : ∀ c ∈ t, c.isWhitespace = true) :
    parse_diet_query recipes (some t) = [] :=
  parse_diet_query_eq_nil (normQuery_eq_nil_of_ws h)

/-- Witness for C2 at the whitespace-only input `"   "`. -/
theorem c2_ws_query_empty_result_witness :
    (∀ c ∈ ("   ".data), c.isWhitespace = true) ∧
      parse_diet_query [Recipe.mk ("naan".data)] (some ("   ".data)) = [] :=
  ⟨by decide, c2_ws_query_empty_result _ _ (by decide)⟩

/-- C3: the normalization pipeline described by the spec (lowercase,
strip, empty check, whitespace split, stopword filter, drop tokens of
length at most 1, preserving order) computes exactly the token list of
line 168 applied to the lowered and stripped input of line 166. -/
theorem c3_normalize_spec_eq_code (raw : Str) :
    normalize_spec raw = queryWords (normQuery (some raw)) := by
  unfold normalize_spec queryWords normQuery
  simp only [Option.getD_some]
  by_cases h : stripWs (lowerS raw) = []
  · rw [if_pos h, h]
    rfl
  · rw [if_neg h]
    refine (List.filter_congr fun w _ => ?_)
    exact decide_eq_decide.2 (and_congr_right fun _ => Nat.not_le)

/-- C4: the substring matcher includes a catalog entry exactly when some
token is a contiguous substring of the entry's lowercased title; the
output is the titles of the matching entries in catalog order, and an
empty token list matches nothing. -/
theorem c4_substring_matcher_correct (words : List Str)
    (recipes : List Recipe) :
    substringMatches words recipes =
      (recipes.filter
        (fun r => decide (∃ w ∈ words, w <:+: lowerS r.title))).map
        Recipe.title ∧
      substringMatches [] recipes = [] := by
  refine ⟨?_, substringMatches_nil_words recipes⟩
  unfold substringMatches
  congr 1
  refine List.filter_congr fun r _ => ?_
  rw [Bool.eq_iff_iff]
  simp [List.any_eq_true, isSub_iff]

/-- C8: determinism and idempotence: the resolver is modelled as a pure
function of the query and the catalog (the Python function reads only its
argument and the immutable module constants), so two invocations with
the same arguments return identical lists. -/
theorem c8_deterministic (recipes : List Recipe) (q : Option Str) :
    parse_diet_query recipes q = parse_diet_query recipes q := rfl

/-- C9: the absent value `None` is coerced to the empty string by
`(text or "")`, so `parse_diet_query` returns `[]` without error. -/
theorem c9_none_gives_nil (recipes : List Recipe) :
    parse_diet_query recipes none = [] :=
  parse_diet_query_eq_nil rfl

/-- C10: every output string originates from the catalog: it is either
the stored title of some entry (substring path) or the title-cased form
of some entry's lowercased title (fuzzy path). -/
theorem c10_provenance (recipes : List Recipe) (q : Option Str) (s : Str)
    (hs : s ∈ parse_diet_query recipes q) :
    (∃ r ∈ recipes, s = r.title) ∨
      (∃ r ∈ recipes, s = titleCase (lowerS r.title)) := by
  by_cases h : normQuery q = []
  · rw [parse_diet_query_eq_nil h] at hs
    cases hs
  · by_cases h2 : substringMatches (queryWords (normQuery q)) recipes = []
    · rw [parse_diet_query_eq_fuzzy h h2] at hs
      have hs2 : s ∈ fuzzyMatches (normQuery q) recipes :=
        mem_dedupFirst.1 (List.mem_of_mem_take hs)
      right
      unfold fuzzyMatches get_close_matches at hs2
      obtain ⟨x, hx, rfl⟩ := List.mem_map.1 hs2
      obtain ⟨p, hp, rfl⟩ := List.mem_map.1 hx
      have hp2 := mem_sortDesc.1 (List.mem_of_mem_take hp)
      unfold closeScored at hp2
      obtain ⟨y, hy, hpy⟩ := List.mem_map.1 hp2
      have hy2 : y ∈ recipes.map fun r => lowerS r.title :=
        (List.mem_filter.1 hy).1
      obtain ⟨r, hr, rfl⟩ := List.mem_map.1 hy2
      refine ⟨r, hr, ?_⟩
      rw [← hpy]
    · rw [parse_diet_query_eq_substr h h2] at hs
      have hs2 : s ∈ substringMatches (queryWords (normQuery q)) recipes :=
        mem_dedupFirst.1 (List.mem_of_mem_take hs)
      left
      unfold substringMatches at hs2
      obtain ⟨r, hr, rfl⟩ := List.mem_map.1 hs2
      exact ⟨r, (List.mem_filter.1 hr).1, rfl⟩

/-- Witness for C10 at a concrete catalog and query. -/
theorem c10_provenance_witness :
    (∃ r ∈ [Recipe.mk ("dosa".data)], ("dosa".data : Str) = r.title) ∨
      (∃ r ∈ [Recipe.mk ("dosa".data)],
        ("dosa".data : Str) = titleCase (lowerS r.title)) :=
  c10_provenance [Recipe.mk ("dosa".data)] (some ("dosa".data))
    ("dosa".data) (by decide)

/-- C7 as stated is false: the final truncation `[:6]` can drop an entry
whose lowercased title contains a query token.  With seven distinct
matching titles, `"naan7"` contains the non-stopword token `"naan"` but
is absent from the result. -/
theorem c7_counterexample :
    Recipe.mk ("naan7".data) ∈
        [Recipe.mk ("naan1".data), Recipe.mk ("naan2".data),
         Recipe.mk ("naan3".data), Recipe.mk ("naan4".data),
         Recipe.mk ("naan5".data), Recipe.mk ("naan6".data),
         Recipe.mk ("naan7".data)] ∧
      ("naan".data) ∈ queryWords (normQuery (some ("naan".data))) ∧
      isSub ("naan".data) (lowerS ("naan7".data)) = true ∧
      ("naan7".data : Str) ∉
        parse_diet_query
          [Recipe.mk ("naan1".data), Recipe.mk ("naan2".data),
           Recipe.mk ("naan3".data), Recipe.mk ("naan4".data),
           Recipe.mk ("naan5".data), Recipe.mk ("naan6".data),
           Recipe.mk ("naan7".data)] (some ("naan".data)) := by
  refine ⟨by decide, by decide, by decide, by decide⟩

/-- C7 amended: if a catalog entry's lowercased title contains a
non-stopword token of the query, its title appears in the resolver's
output, provided the deduplicated substring match list has at most 6
entries (otherwise only the first 6 distinct matching titles survive the
truncation). -/
theorem c7_amended_substr_title_in_result {recipes : List Recipe}
    {q : Option Str} (r : Recipe) (w : Str)
    (hr : r ∈ recipes)
    (hw : w ∈ queryWords (normQuery q))
    (hsub : isSub w (lowerS r.title) = true)
    (hlen :
      (dedupFirst
        (substringMatches (queryWords (normQuery q)) recipes)).length ≤ 6) :
    r.title ∈ parse_diet_query recipes q := by
  have htext : normQuery q ≠ [] := by
    intro h
    rw [h] at hw
    simp [queryWords, splitWs, splitWsAux] at hw
  have hmem :
      r.title ∈ substringMatches (queryWords (normQuery q)) recipes := by
    unfold substringMatches
    refine List.mem_map.2 ⟨r, ?_, rfl⟩
    exact List.mem_filter.2 ⟨hr, List.any_eq_true.2 ⟨w, hw, hsub⟩⟩
  rw [parse_diet_query_eq_substr htext (List.ne_nil_of_mem hmem),
    List.take_of_length_le hlen]
  exact mem_dedupFirst.2 hmem

/-- Witness for the amended C7: the spec's own example, catalog
`["Paneer Tikka", "Chicken Curry"]` and query `"i want tikka"`. -/
theorem c7_amended_witness :
    ("Paneer Tikka".data : Str) ∈
      parse_diet_query
        [Recipe.mk ("Paneer Tikka".data), Recipe.mk ("Chicken Curry".data)]
        (some ("i want tikka".data)) :=
  c7_amended_substr_title_in_result (Recipe.mk ("Paneer Tikka".data))
    ("tikka".data) (by decide) (by decide) (by decide) (by decide)

/-- C6 as stated is false: a stopword-only query does yield an empty
token sequence, but the resolver then falls through to the fuzzy matcher
on the full text, which can return results.  The stopword `"the"`
fuzzy-matches the catalog title `"tea"` (ratio 2/3), so the result is
`["Tea"]`, not `[]`. -/
theorem c6_counterexample :
    queryWords (normQuery (some ("the".data))) = [] ∧
      parse_diet_query [Recipe.mk ("tea".data)] (some ("the".data)) =
        [("Tea".data)] ∧
      [("Tea".data)] ≠ ([] : List Str) := by
  refine ⟨by decide, by decide, by decide⟩

/-- C6 amended: a query all of whose whitespace tokens are stopwords or
have length at most 1 normalizes to an empty token sequence; the
substring matcher then finds nothing and the result is the fuzzy
fallback on the full normalized text (deduplicated and capped at 6) —
in particular it is `[]` exactly when no catalog title reaches the 0.5
similarity cutoff. -/
theorem c6_amended_stopword_only {recipes : List Recipe} (t : Str)
    (hstop : ∀ w ∈ splitWs (normQuery (some t)),
      w ∈ STOPWORDS ∨ w.length ≤ 1)
    (hne : normQuery (some t) ≠ []) :
    queryWords (normQuery (some t)) = [] ∧
      parse_diet_query recipes (some t) =
        (dedupFirst (fuzzyMatches (normQuery (some t)) recipes)).take 6 := by
  have htok : queryWords (normQuery (some t)) = [] := by
    unfold queryWords
    refine List.filter_eq_nil_iff.2 fun w hw => ?_
    intro hcontra
    rw [decide_eq_true_iff] at hcontra
    rcases hstop w hw with h | h
    · exact hcontra.1 h
    · omega
  refine ⟨htok, ?_⟩
  have hsub : substringMatches (queryWords (normQuery (some t))) recipes
      = [] := by
    rw [htok]
    exact substringMatches_nil_words recipes
  exact parse_diet_query_eq_fuzzy hne hsub

/-- Witness for the amended C6 at the spec's example query. -/
theorem c6_amended_witness :
    queryWords (normQuery (some ("what i want to eat".data))) = [] ∧
      parse_diet_query [] (some ("what i want to eat".data)) =
        (dedupFirst
          (fuzzyMatches (normQuery (some ("what i want to eat".data)))
            [])).take 6 :=
  c6_amended_stopword_only ("what i want to eat".data) (by decide)
    (by decide)

/-- C5 as stated is false in its tie-breaking clause: `heapq.nlargest`
compares the `(ratio, title)` pairs, so equal ratios are ordered by
descending lexicographic title, not by catalog order.  Catalog
`["xy", "zy"]` and query `"wy"`: both titles have ratio exactly 1/2, the
substring matcher finds nothing, and the resolver returns
`["Zy", "Xy"]` — catalog-order ties would give `["Xy", "Zy"]`. -/
theorem c5_counterexample :
    substringMatches (queryWords (normQuery (some ("wy".data))))
        [Recipe.mk ("xy".data), Recipe.mk ("zy".data)] = [] ∧
      ratEq (scoreOf ("wy".data) ("xy".data))
        (scoreOf ("wy".data) ("zy".data)) = true ∧
      parse_diet_query [Recipe.mk ("xy".data), Recipe.mk ("zy".data)]
        (some ("wy".data)) = [("Zy".data), ("Xy".data)] ∧
      (get_close_matches_specOrder ("wy".data)
          [lowerS ("xy".data), lowerS ("zy".data)] 6 1 2).map titleCase =
        [("Xy".data), ("Zy".data)] ∧
      ([("Zy".data), ("Xy".data)] : List Str) ≠
        [("Xy".data), ("Zy".data)] := by
  refine ⟨by decide, by decide, by decide, by decide, by decide⟩

/-- C5 amended: the fuzzy matcher runs exactly when the substring matcher
returns zero results (and the normalized query is nonempty); it selects
at most 6 lowercased catalog titles, each passing the 0.5 similarity
cutoff against the full normalized query, returns them title-cased, and
orders them by descending similarity with ties broken by descending
lexicographic order of the lowercased title (the order of
`heapq.nlargest` on `(ratio, title)` pairs) — not by catalog order; if
no title passes the cutoff the output is empty. -/
theorem c5_amended_fuzzy (recipes : List Recipe) (q : Option Str) :
    (normQuery q ≠ [] →
      substringMatches (queryWords (normQuery q)) recipes ≠ [] →
      parse_diet_query recipes q =
        (dedupFirst
          (substringMatches (queryWords (normQuery q)) recipes)).take 6) ∧
    (normQuery q ≠ [] →
      substringMatches (queryWords (normQuery q)) recipes = [] →
      parse_diet_query recipes q =
        (dedupFirst (fuzzyMatches (normQuery q) recipes)).take 6) ∧
    fuzzyMatches (normQuery q) recipes =
      (get_close_matches (normQuery q)
        (recipes.map fun r => lowerS r.title) 6 1 2).map titleCase ∧
    (get_close_matches (normQuery q)
      (recipes.map fun r => lowerS r.title) 6 1 2).length ≤ 6 ∧
    (∀ x ∈ get_close_matches (normQuery q)
        (recipes.map fun r => lowerS r.title) 6 1 2,
      (∃ r ∈ recipes, x = lowerS r.title) ∧
        closeEnough (normQuery q) x 1 2 = true) ∧
    (get_close_matches (normQuery q)
        (recipes.map fun r => lowerS r.title) 6 1 2).Pairwise
      (fun x y =>
        keyLt (scoreOf (normQuery q) x, x)
          (scoreOf (normQuery q) y, y) = false) ∧
    ((∀ x ∈ recipes.map fun r => lowerS r.title,
        closeEnough (normQuery q) x 1 2 = false) →
      get_close_matches (normQuery q)
        (recipes.map fun r => lowerS r.title) 6 1 2 = []) := by
  refine ⟨fun h1 h2 => parse_diet_query_eq_substr h1 h2,
    fun h1 h2 => parse_diet_query_eq_fuzzy h1 h2, rfl, ?_, ?_, ?_, ?_⟩
  · rw [get_close_matches, List.length_map]
    exact List.length_take_le 6 _
  · intro x hx
    unfold get_close_matches at hx
    obtain ⟨p, hp, rfl⟩ := List.mem_map.1 hx
    have hp2 := mem_sortDesc.1 (List.mem_of_mem_take hp)
    unfold closeScored at hp2
    obtain ⟨y, hy, hpy⟩ := List.mem_map.1 hp2
    have hy1 : y ∈ recipes.map fun r => lowerS r.title :=
      (List.mem_filter.1 hy).1
    have hy2 := List.of_mem_filter hy
    obtain ⟨r, hr, hry⟩ := List.mem_map.1 hy1
    rw [← hpy]
    exact ⟨⟨r, hr, hry.symm⟩, hy2⟩
  · have htot : ∀ a b : (Nat × Nat) × Str,
        keyGe a b = true ∨ keyGe b a = true := by
      intro a b
      rcases keyLt_false_total a b with h | h
      · exact Or.inl (keyGe_eq_true_iff.2 h)
      · exact Or.inr (keyGe_eq_true_iff.2 h)
    have htr : ∀ a b c : (Nat × Nat) × Str,
        keyGe a b = true → keyGe b c = true → keyGe a c = true :=
      fun a b c h1 h2 => keyGe_eq_true_iff.2
        (keyLt_false_trans (keyGe_eq_true_iff.1 h1) (keyGe_eq_true_iff.1 h2))
    unfold get_close_matches
    rw [List.pairwise_map]
    have hp : (sortDesc keyGe
        (closeScored (normQuery q)
          (recipes.map fun r => lowerS r.title) 1 2)).Pairwise
        (fun a b => keyGe a b = true) :=
      pairwise_sortDesc htot htr _
    have hp2 := hp.sublist (List.take_sublist 6 _)
    have hshape : ∀ p ∈ (sortDesc keyGe
        (closeScored (normQuery q)
          (recipes.map fun r => lowerS r.title) 1 2)).take 6,
        (scoreOf (normQuery q) p.2, p.2) = p := by
      intro p hp3
      have := mem_sortDesc.1 (List.mem_of_mem_take hp3)
      unfold closeScored at this
      obtain ⟨y, hy, hpy⟩ := List.mem_map.1 this
      rw [← hpy]
    refine List.Pairwise.imp_of_mem ?_ hp2
    intro a b ha hb hab
    rw [hshape a ha, hshape b hb]
    exact keyGe_eq_true_iff.1 hab
  · intro hall
    unfold get_close_matches closeScored
    rw [List.filter_eq_nil_iff.2 fun x hx => by simp [hall x hx]]
    rfl

/-- Witness for the amended C5, exercising the substring branch at a
concrete input. -/
theorem c5_amended_witness :
    parse_diet_query [Recipe.mk ("dosa".data)] (some ("dosa".data)) =
      (dedupFirst
        (substringMatches
          (queryWords (normQuery (some ("dosa".data))))
          [Recipe.mk ("dosa".data)])).take 6 :=
  (c5_amended_fuzzy [Recipe.mk ("dosa".data)] (some ("dosa".data))).1
    (by decide) (by decide)
